import Mathlib

/-!
Verification of the lab0 greyscale image filtering library (`lab.py`).

The development has two layers.

1. A value-level embedding: an image is a record of a height, a width and a
   row-major list of pixel values.  Python numbers (ints and floats) are
   idealised as exact rationals `ℚ`; the square root taken in `edges` is the
   exact real square root, so that function alone lives over `ℝ`.  Each Lean
   function is a direct transcription of the corresponding Python function and
   denotes the value that function returns.

2. A store-level embedding (namespace `Heap`, further below) that makes the
   aliasing and in-place mutation of Python lists explicit: a store is a list
   of pixel buffers, an image record holds a reference (an index) into the
   store, and every function threads the store.  This layer is used for the
   claims about mutation of inputs.
-/

namespace Lab0

/-- Transcription of `in_bound(dim, s)`: clamp a coordinate `s` into the
extent `dim` (edge replication).  Python ints are `ℤ`. -/
def in_bound (dim s : ℤ) : ℤ :=
  if s ≤ -1 then 0
  else if dim ≤ s then dim - 1
  else s

/-- A 6.009 image dictionary: `height`, `width` and a row-major pixel list.
Pixel values are idealised as exact rationals. -/
structure Image where
  height : Nat
  width : Nat
  pixels : List ℚ
deriving DecidableEq

/-- Python list subscription `l[i]` for an integer index: non-negative
indices count from the front, negative indices from the back; an
out-of-range index raises `IndexError` in Python, modelled here by the junk
value `0` (never reached on the inputs the claims are about, see the
`get_pixel` safety theorem). -/
def pyGet (l : List ℚ) (i : ℤ) : ℚ :=
  if 0 ≤ i ∧ i < l.length then l.getD i.toNat 0
  else if -(l.length : ℤ) ≤ i ∧ i < 0 then l.getD (l.length - (-i).toNat) 0
  else 0

/-- Transcription of `get_pixel(image, x, y)`: clamp the row `x` against the
height and the column `y` against the width, then read
`image['pixels'][x * image['width'] + y]`. -/
def get_pixel (image : Image) (x y : ℤ) : ℚ :=
  pyGet image.pixels
    (in_bound image.height x * image.width + in_bound image.width y)

/-- Row-major pixel list produced by the nested loop
`for x in range(h): for y in range(w): append (f x y)`. -/
def pixList (h w : Nat) (f : Nat → Nat → ℚ) : List ℚ :=
  (List.range h).flatMap (fun x => (List.range w).map (f x))

/-- Transcription of `apply_per_pixel(image, func)`: build a fresh image by
applying `func` to every pixel, in row-major loop order. -/
def apply_per_pixel (image : Image) (func : ℚ → ℚ) : Image :=
  ⟨image.height, image.width,
    pixList image.height image.width
      (fun x y => func (get_pixel image (x : ℤ) (y : ℤ)))⟩

/-- Transcription of `inverted(image)`. -/
def inverted (image : Image) : Image :=
  apply_per_pixel image (fun c => 255 - c)

/-- Transcription of `correlate(image, kernel)`.  The source computes
`kernel_size = int(len(kernel) ** (1/2))`, i.e. the integer square root of
the kernel length, and `num_layers = int((kernel_size - 1)/2)`; for every
output coordinate it accumulates `kernel[h*kernel_size + w] *
get_pixel(image, x - num_layers + h, y - num_layers + w)` over
`h, w in range(kernel_size)`. -/
def correlate (image : Image) (kernel : List ℚ) : Image :=
  let kernel_size := Nat.sqrt kernel.length
  let num_layers := (kernel_size - 1) / 2
  ⟨image.height, image.width,
    pixList image.height image.width (fun x y =>
      ((List.range kernel_size).flatMap (fun h =>
        (List.range kernel_size).map (fun w =>
          kernel.getD (h * kernel_size + w) 0 *
            get_pixel image ((x : ℤ) - num_layers + h) ((y : ℤ) - num_layers + w)))).sum)⟩

/-- Python's built-in `round`, modelled from the language reference: round to
the nearest integer, ties to the nearest even integer (banker's rounding). -/
def pyRound (q : ℚ) : ℤ :=
  if q - ⌊q⌋ < 1 / 2 then ⌊q⌋
  else if 1 / 2 < q - ⌊q⌋ then ⌊q⌋ + 1
  else if 2 ∣ ⌊q⌋ then ⌊q⌋ else ⌊q⌋ + 1

/-- The per-pixel body of `round_and_clip_image`: `0` if `round(pixel) < 0`,
`255` if `round(pixel) > 255`, else `round(pixel)`. -/
def roundClip (q : ℚ) : ℚ :=
  if pyRound q < 0 then 0
  else if 255 < pyRound q then 255
  else (pyRound q : ℚ)

/-- Value returned by `round_and_clip_image(image)`: every pixel rounded and
clamped.  (In Python the update happens in place on the argument and the same
dictionary is returned; the store-level embedding below models that.) -/
def round_and_clip_image (image : Image) : Image :=
  ⟨image.height, image.width, image.pixels.map roundClip⟩

/-- Transcription of `get_blur_kernel(n)`: the flat `n*n` kernel all of whose
weights are `1/n**2`. -/
def get_blur_kernel (n : Nat) : List ℚ :=
  List.replicate (n ^ 2) (1 / (n : ℚ) ^ 2)

/-- Transcription of `blurred(image, n, correct=True)`.  The Python default
argument `correct=True` is passed explicitly at every use site here. -/
def blurred (image : Image) (n : Nat) (correct : Bool) : Image :=
  let kernel := get_blur_kernel n
  let correlated := correlate image kernel
  if correct then round_and_clip_image correlated else correlated

/-- Transcription of `sharpened(image, n)`: per-pixel `2*x - y` of the image
zipped with its unclipped blur, then round-and-clip. -/
def sharpened (image : Image) (n : Nat) : Image :=
  round_and_clip_image
    ⟨image.height, image.width,
      (image.pixels.zip (blurred image n false).pixels).map
        (fun p => 2 * p.1 - p.2)⟩

theorem pixList_length (h w : Nat) (f : Nat → Nat → ℚ) :
    (pixList h w f).length = h * w := by
  induction h with
  | zero => simp [pixList]
  | succ n ih =>
    unfold pixList at ih ⊢
    rw [List.range_succ, List.flatMap_append, List.length_append, ih]
    simp [Nat.succ_mul]

theorem pixList_getD (h w x y : Nat) (f : Nat → Nat → ℚ) (hx : x < h) (hy : y < w) :
    (pixList h w f).getD (x * w + y) 0 = f x y := by
  induction h with
  | zero => omega
  | succ n ih =>
    have hlen :
        ((List.range n).flatMap fun x => (List.range w).map (f x)).length = n * w :=
      pixList_length n w f
    unfold pixList at ih ⊢
    rw [List.range_succ, List.flatMap_append]
    rcases Nat.lt_or_ge x n with hxn | hxn
    · rw [List.getD_append]
      · exact ih hxn
      · rw [hlen]
        have h1 : x + 1 ≤ n := hxn
        calc x * w + y < x * w + w := by omega
          _ = (x + 1) * w := by ring
          _ ≤ n * w := Nat.mul_le_mul_right w h1
    · have hxe : x = n := by omega
      subst hxe
      rw [List.getD_append_right]
      · rw [hlen]
        have hyl : x * w + y - x * w = y := by omega
        rw [hyl, List.flatMap_singleton]
        have hy2 : y < ((List.range w).map (f x)).length := by
          simpa using hy
        rw [List.getD_eq_getElem _ _ hy2]
        simp
      · rw [hlen]; omega

theorem sum_map_range (n : Nat) (f : Nat → ℚ) :
    ((List.range n).map f).sum = ∑ i ∈ Finset.range n, f i := by
  induction n with
  | zero => simp
  | succ m ih =>
    rw [List.range_succ, List.map_append, List.sum_append,
      Finset.sum_range_succ, ih]
    simp

theorem sum_flatMap_range (a b : Nat) (f : Nat → Nat → ℚ) :
    ((List.range a).flatMap (fun i => (List.range b).map (f i))).sum =
      ∑ i ∈ Finset.range a, ∑ j ∈ Finset.range b, f i j := by
  induction a with
  | zero => simp
  | succ m ih =>
    rw [List.range_succ, List.flatMap_append, List.sum_append,
      Finset.sum_range_succ, ih, List.flatMap_singleton, sum_map_range]

/-- Claim C1 — `correlate` returns an image of the same height and width,
with `height*width` pixels, whose pixel at output coordinate `(x, y)` is the
exact (unrounded, unclamped) sliding-window sum
`∑ kr < n, ∑ kc < n, kernel[kr*n + kc] * get_pixel(image, x - half + kr,
y - half + kc)` with `half = (n - 1) / 2`, whenever the kernel has length
`n*n` for an odd `n`. -/
theorem correlate_spec (img : Image) (kernel : List ℚ) (n : Nat)
    (_hodd : n % 2 = 1) (hk : kernel.length = n * n)
    (_hp : img.pixels.length = img.height * img.width) :
    (correlate img kernel).height = img.height ∧
    (correlate img kernel).width = img.width ∧
    (correlate img kernel).pixels.length = img.height * img.width ∧
    ∀ x y : Nat, x < img.height → y < img.width →
      (correlate img kernel).pixels.getD (x * img.width + y) 0 =
        ∑ kr ∈ Finset.range n, ∑ kc ∈ Finset.range n,
          kernel.getD (kr * n + kc) 0 *
            get_pixel img ((x : ℤ) - ((n - 1) / 2 : Nat) + kr)
              ((y : ℤ) - ((n - 1) / 2 : Nat) + kc) := by
  have hks : Nat.sqrt kernel.length = n := by rw [hk, Nat.sqrt_eq]
  refine ⟨rfl, rfl, ?_, ?_⟩
  · simpa [correlate] using pixList_length img.height img.width _
  · intro x y hx hy
    simp only [correlate, hks]
    rw [pixList_getD _ _ _ _ _ hx hy, sum_flatMap_range]

/-- Witness for C1: `correlate` of a concrete 1×1 image with the 1×1 kernel
`[2]`, via `correlate_spec`. -/
theorem correlate_spec_witness :
    (correlate ⟨1, 1, [5]⟩ [2]).height = 1 ∧
    (correlate ⟨1, 1, [5]⟩ [2]).pixels.getD (0 * 1 + 0) 0 =
      ∑ kr ∈ Finset.range 1, ∑ kc ∈ Finset.range 1,
        ([2] : List ℚ).getD (kr * 1 + kc) 0 *
          get_pixel ⟨1, 1, [5]⟩ ((0 : ℤ) - ((1 - 1) / 2 : Nat) + kr)
            ((0 : ℤ) - ((1 - 1) / 2 : Nat) + kc) :=
  ⟨(correlate_spec ⟨1, 1, [5]⟩ [2] 1 (by decide) (by decide) (by decide)).1,
   (correlate_spec ⟨1, 1, [5]⟩ [2] 1 (by decide) (by decide) (by decide)).2.2.2
     0 0 (by decide) (by decide)⟩

/-- Python's built-in `round` on a float, idealised over the exact reals:
same rounding rule as `pyRound`.  Used by `edges`, whose intermediate pixel
values `sqrt(x²+y²)` are irrational in general. -/
noncomputable def pyRoundR (r : ℝ) : ℤ :=
  if r - ⌊r⌋ < 1 / 2 then ⌊r⌋
  else if 1 / 2 < r - ⌊r⌋ then ⌊r⌋ + 1
  else if 2 ∣ ⌊r⌋ then ⌊r⌋ else ⌊r⌋ + 1

/-- The per-pixel body of `round_and_clip_image` applied to a real-valued
pixel (Python is untyped, so the same source function serves both the
rational-valued and the real-valued intermediate images); the result is
always an integer, returned in `ℚ`. -/
noncomputable def roundClipRQ (r : ℝ) : ℚ :=
  if pyRoundR r < 0 then 0
  else if 255 < pyRoundR r then 255
  else (pyRoundR r : ℚ)

/-- An image whose pixel values are reals: the intermediate `Oxy` dictionary
built inside `edges` before quantisation. -/
structure ImageR where
  height : Nat
  width : Nat
  pixels : List ℝ

/-- `round_and_clip_image` at the real-valued-image instance (the call made
by `edges` on `Oxy`). -/
noncomputable def round_and_clip_imageR (image : ImageR) : Image :=
  ⟨image.height, image.width, image.pixels.map roundClipRQ⟩

/-- Transcription of `edges(i)`: correlate with the two fixed Sobel kernels,
combine pointwise by `(x**2 + y**2) ** (1/2)` (exact real square root), then
round-and-clip.  (`Oxy = i.copy()` followed by rebinding `Oxy['pixels']`
contributes only the height and width of `i`, carried over here.) -/
noncomputable def edges (i : Image) : Image :=
  let Kx : List ℚ := [-1, 0, 1, -2, 0, 2, -1, 0, 1]
  let Ky : List ℚ := [-1, -2, -1, 0, 0, 0, 1, 2, 1]
  let Ox := correlate i Kx
  let Oy := correlate i Ky
  round_and_clip_imageR ⟨i.height, i.width,
    (Ox.pixels.zip Oy.pixels).map
      (fun p => Real.sqrt ((p.1 : ℝ) ^ 2 + (p.2 : ℝ) ^ 2))⟩

/-- Claim C2 — `in_bound` clamps a coordinate to the nearest in-bounds
coordinate: `0` for a negative coordinate; `dim - 1` for a coordinate at or
beyond the extent (the negative test is made first, exactly as in the
`if`/`elif` chain of the source, and for an actual extent `0 ≤ dim` the two
tests never overlap, so no priority is needed); the coordinate itself
otherwise. -/
theorem in_bound_spec (dim s : ℤ) :
    (s < 0 → in_bound dim s = 0) ∧
    (0 ≤ s → dim ≤ s → in_bound dim s = dim - 1) ∧
    (0 ≤ s → s < dim → in_bound dim s = s) ∧
    (0 ≤ dim → dim ≤ s → in_bound dim s = dim - 1) := by
  refine ⟨?_, ?_, ?_, ?_⟩ <;> intros <;> unfold in_bound <;> split_ifs <;> omega

/-- Witness for C2: `in_bound` evaluated on concrete coordinates of each of
the three kinds, via `in_bound_spec`. -/
theorem in_bound_spec_witness :
    in_bound 10 (-3) = 0 ∧ in_bound 10 12 = 9 ∧ in_bound 10 4 = 4 :=
  ⟨(in_bound_spec 10 (-3)).1 (by decide),
   (in_bound_spec 10 12).2.1 (by decide) (by decide),
   (in_bound_spec 10 4).2.2.1 (by decide) (by decide)⟩

theorem pixList_congr (h w : Nat) (f g : Nat → Nat → ℚ)
    (hfg : ∀ x, x < h → ∀ y, y < w → f x y = g x y) :
    pixList h w f = pixList h w g := by
  induction h with
  | zero => rfl
  | succ n ih =>
    unfold pixList at ih ⊢
    rw [List.range_succ, List.flatMap_append, List.flatMap_append,
      ih (fun x hx y hy => hfg x (Nat.lt_succ_of_lt hx) y hy)]
    congr 1
    rw [List.flatMap_singleton, List.flatMap_singleton]
    exact List.map_congr_left
      (fun y hy => hfg n (Nat.lt_succ_self n) y (List.mem_range.mp hy))

theorem correlate_pixels (img : Image) (kernel : List ℚ) :
    correlate img kernel = ⟨img.height, img.width,
      pixList img.height img.width (fun x y =>
        ∑ kr ∈ Finset.range (Nat.sqrt kernel.length),
          ∑ kc ∈ Finset.range (Nat.sqrt kernel.length),
            kernel.getD (kr * Nat.sqrt kernel.length + kc) 0 *
              get_pixel img
                ((x : ℤ) - ((Nat.sqrt kernel.length - 1) / 2 : Nat) + kr)
                ((y : ℤ) - ((Nat.sqrt kernel.length - 1) / 2 : Nat) + kc))⟩ := by
  simp only [correlate]
  congr 1
  apply pixList_congr
  intro x _ y _
  rw [sum_flatMap_range]

/-- Claim C5 (counterexample) — on the 1×1 image `[10]` and the kernel
`[2, 3]`, whose length `2` is not a perfect square, `correlate` does not fail
fast: it returns the normal result `[20]`, which is exactly the correlation
with the one-element prefix `[2]` of the kernel (the weight `3` is silently
ignored; the source computes `kernel_size = int(2 ** 0.5) = 1` and never
validates squareness). -/
theorem correlate_truncates_counterexample :
    correlate ⟨1, 1, [10]⟩ [2, 3] = correlate ⟨1, 1, [10]⟩ [2] ∧
    correlate ⟨1, 1, [10]⟩ [2, 3] = ⟨1, 1, [20]⟩ := by
  with_unfolding_all decide

/-- Claim C5 (amended) — `correlate` never validates the kernel: for every
kernel it behaves exactly as it would on the prefix of the first
`isqrt(len)²` weights, so a kernel of non-square length is silently
truncated rather than rejected. -/
theorem correlate_truncates (img : Image) (kernel : List ℚ) :
    correlate img kernel =
      correlate img
        (kernel.take (Nat.sqrt kernel.length * Nat.sqrt kernel.length)) := by
  have hle : Nat.sqrt kernel.length * Nat.sqrt kernel.length ≤ kernel.length :=
    Nat.sqrt_le _
  have hlen : (kernel.take (Nat.sqrt kernel.length * Nat.sqrt kernel.length)).length
      = Nat.sqrt kernel.length * Nat.sqrt kernel.length := by
    rw [List.length_take]; omega
  have hks2 : Nat.sqrt (kernel.take
      (Nat.sqrt kernel.length * Nat.sqrt kernel.length)).length
      = Nat.sqrt kernel.length := by
    rw [hlen, Nat.sqrt_eq]
  rw [correlate_pixels, correlate_pixels, hks2]
  congr 1
  apply pixList_congr
  intro x _ y _
  apply Finset.sum_congr rfl
  intro kr hkr
  apply Finset.sum_congr rfl
  intro kc hkc
  have hkr2 : kr < Nat.sqrt kernel.length := Finset.mem_range.mp hkr
  have hkc2 : kc < Nat.sqrt kernel.length := Finset.mem_range.mp hkc
  have hidx : kr * Nat.sqrt kernel.length + kc <
      Nat.sqrt kernel.length * Nat.sqrt kernel.length := by
    calc kr * Nat.sqrt kernel.length + kc
        < kr * Nat.sqrt kernel.length + Nat.sqrt kernel.length := by omega
      _ = (kr + 1) * Nat.sqrt kernel.length := by ring
      _ ≤ Nat.sqrt kernel.length * Nat.sqrt kernel.length :=
          Nat.mul_le_mul_right _ hkr2
  rw [List.getD_eq_getElem?_getD, List.getD_eq_getElem?_getD,
    List.getElem?_take, if_pos hidx]

theorem get_pixel_in_range (img : Image) (x y : Nat)
    (hp : img.pixels.length = img.height * img.width)
    (hx : x < img.height) (hy : y < img.width) :
    get_pixel img (x : ℤ) (y : ℤ) = img.pixels.getD (x * img.width + y) 0 := by
  have hx2 : in_bound img.height (x : ℤ) = x := by
    have hx3 : (x : ℤ) < img.height := by exact_mod_cast hx
    unfold in_bound; split_ifs <;> omega
  have hy2 : in_bound img.width (y : ℤ) = y := by
    have hy3 : (y : ℤ) < img.width := by exact_mod_cast hy
    unfold in_bound; split_ifs <;> omega
  unfold get_pixel pyGet
  rw [hx2, hy2]
  have hnat : x * img.width + y < img.pixels.length := by
    rw [hp]
    calc x * img.width + y < x * img.width + img.width := by omega
      _ = (x + 1) * img.width := by ring
      _ ≤ img.height * img.width := Nat.mul_le_mul_right _ (by omega)
  have hcast : (x : ℤ) * img.width + y = ((x * img.width + y : Nat) : ℤ) := by
    push_cast; ring
  rw [hcast, if_pos ⟨by positivity, by exact_mod_cast hnat⟩, Int.toNat_natCast]

theorem pixList_getD_self (h w : Nat) (l : List ℚ) (hl : l.length = h * w) :
    pixList h w (fun x y => l.getD (x * w + y) 0) = l := by
  rcases Nat.eq_zero_or_pos w with hw | hw
  · subst hw
    have h0 : l = [] := List.length_eq_zero.mp (by omega)
    subst h0
    simp [pixList]
  · apply List.ext_getElem
    · rw [pixList_length, hl]
    · intro i h1 h2
      have hlen2 : i < h * w := by
        have := h1; rwa [pixList_length] at this
      have hiw : i / w < h := by
        rw [Nat.div_lt_iff_lt_mul hw]; omega
      have him : i % w < w := Nat.mod_lt _ hw
      have hi : (i / w) * w + i % w = i := by
        rw [Nat.mul_comm]; exact Nat.div_add_mod i w
      rw [← List.getD_eq_getElem _ 0 h1, ← List.getD_eq_getElem _ 0 h2, ← hi,
        pixList_getD h w _ _ _ hiw him]

theorem correlate_blur_one (img : Image)
    (hp : img.pixels.length = img.height * img.width) :
    correlate img (get_blur_kernel 1) = img := by
  have hker : get_blur_kernel 1 = [1] := by
    norm_num [get_blur_kernel, List.replicate]
  rw [hker, correlate_pixels]
  have hs : Nat.sqrt ([(1 : ℚ)]).length = 1 := by norm_num
  cases img with
  | mk height width pixels =>
    simp only at hp ⊢
    congr 1
    trans (pixList height width (fun x y => pixels.getD (x * width + y) 0))
    · apply pixList_congr
      intro x hx y hy
      rw [hs, Finset.sum_range_one, Finset.sum_range_one]
      have hgp := get_pixel_in_range ⟨height, width, pixels⟩ x y hp hx hy
      simp only [show ((1 - 1) / 2 : ℕ) = 0 from rfl, Nat.cast_zero, sub_zero,
        add_zero, hgp]
      simp
    · exact pixList_getD_self height width pixels hp

/-- The 11×11 test image with a single bright pixel of value 255 at row 5,
column 5 (row-major index 60) and 0 everywhere else. -/
def centeredPixelImage : Image :=
  ⟨11, 11, (List.range 121).map (fun i => if i = 60 then 255 else 0)⟩

set_option maxRecDepth 10000 in
/-- Claim C9 — box blur of the centered single-bright-pixel 11×11 image:
kernel size 3 yields `round(255/9)` exactly on the 3×3 block of rows 4–6 and
columns 4–6 (centered at (5,5)) and 0 elsewhere; kernel size 5 yields
`round(255/25)` exactly on the 5×5 block of rows 3–7 and columns 3–7 and 0
elsewhere. -/
theorem blurred_centered_pixel :
    blurred centeredPixelImage 3 true =
      ⟨11, 11, (List.range 121).map (fun i =>
        if 4 ≤ i / 11 ∧ i / 11 ≤ 6 ∧ 4 ≤ i % 11 ∧ i % 11 ≤ 6
        then ((pyRound ((255 : ℚ) / 9) : ℤ) : ℚ) else 0)⟩ ∧
    blurred centeredPixelImage 5 true =
      ⟨11, 11, (List.range 121).map (fun i =>
        if 3 ≤ i / 11 ∧ i / 11 ≤ 7 ∧ 3 ≤ i % 11 ∧ i % 11 ≤ 7
        then ((pyRound ((255 : ℚ) / 25) : ℤ) : ℚ) else 0)⟩ := by
  constructor
  · with_unfolding_all decide
  · with_unfolding_all decide

/-- A pixel value that is a valid 8-bit sample: an integer in `[0, 255]`. -/
def isByte (q : ℚ) : Prop := q.den = 1 ∧ 0 ≤ q ∧ q ≤ 255

instance (q : ℚ) : Decidable (isByte q) := by unfold isByte; infer_instance

/-- Claim C8 — box blur with kernel size 1 is the identity up to
quantization: on a well-formed image whose pixels are integers in
`[0, 255]`, `blurred(I, 1)` coincides with `round_and_clip_image(I)`. -/
theorem blurred_one_eq_clip (img : Image)
    (_hb : ∀ v ∈ img.pixels, isByte v)
    (hp : img.pixels.length = img.height * img.width) :
    blurred img 1 true = round_and_clip_image img := by
  show round_and_clip_image (correlate img (get_blur_kernel 1)) =
    round_and_clip_image img
  rw [correlate_blur_one img hp]

/-- Witness for C8: identity blur on a concrete 1×2 image, via
`blurred_one_eq_clip`. -/
theorem blurred_one_eq_clip_witness :
    blurred ⟨1, 2, [7, 200]⟩ 1 true = round_and_clip_image ⟨1, 2, [7, 200]⟩ :=
  blurred_one_eq_clip ⟨1, 2, [7, 200]⟩ (by with_unfolding_all decide)
    (by decide)

theorem roundClip_eq (q : ℚ) :
    roundClip q = ((max 0 (min 255 (pyRound q)) : ℤ) : ℚ) := by
  unfold roundClip
  split_ifs with h1 h2
  · have h3 : (max 0 (min 255 (pyRound q)) : ℤ) = 0 := by omega
    rw [h3]; norm_num
  · have h3 : (max 0 (min 255 (pyRound q)) : ℤ) = 255 := by omega
    rw [h3]; norm_num
  · have h3 : (max 0 (min 255 (pyRound q)) : ℤ) = pyRound q := by omega
    rw [h3]

theorem pyRound_nearest (v : ℚ) (k : ℤ) :
    |v - (pyRound v : ℚ)| ≤ |v - (k : ℚ)| := by
  have h0 : ((⌊v⌋ : ℤ) : ℚ) ≤ v := Int.floor_le v
  have h1 : v < (⌊v⌋ : ℚ) + 1 := Int.lt_floor_add_one v
  have ha1 : v - (k : ℚ) ≤ |v - (k : ℚ)| := le_abs_self _
  have ha2 : (k : ℚ) - v ≤ |v - (k : ℚ)| := by
    rw [abs_sub_comm]; exact le_abs_self _
  have hk : (k : ℚ) ≤ (⌊v⌋ : ℚ) ∨ (⌊v⌋ : ℚ) + 1 ≤ (k : ℚ) := by
    rcases Int.lt_or_le ⌊v⌋ k with h | h
    · right; exact_mod_cast h
    · left; exact_mod_cast h
  unfold pyRound
  split_ifs with ha hb hc
  · rw [abs_of_nonneg (by linarith)]
    rcases hk with hk | hk <;> linarith
  · push_cast
    rw [abs_of_nonpos (by linarith)]
    rcases hk with hk | hk <;> linarith
  · rw [abs_of_nonneg (by linarith)]
    rcases hk with hk | hk <;> linarith
  · push_cast
    rw [abs_of_nonpos (by linarith)]
    rcases hk with hk | hk <;> linarith

theorem pyRound_tie_even (v : ℚ) (h : |v - (pyRound v : ℚ)| = 1 / 2) :
    2 ∣ pyRound v := by
  have h0 : ((⌊v⌋ : ℤ) : ℚ) ≤ v := Int.floor_le v
  have h1 : v < (⌊v⌋ : ℚ) + 1 := Int.lt_floor_add_one v
  unfold pyRound at h ⊢
  split_ifs at h ⊢ with ha hb hc
  · rw [abs_of_nonneg (by linarith)] at h
    linarith
  · push_cast at h
    rw [abs_of_nonpos (by linarith)] at h
    linarith
  · exact hc
  · omega

/-- Claim C3 — `round_and_clip_image` keeps the dimensions and maps every
pixel value `v` to `round(v)` clamped into `[0, 255]`, where `round` is the
nearest integer with ties to the nearest even integer: the last two
conjuncts verify the rounding rule itself (`pyRound v` is a nearest integer
to `v`, and an exact tie always lands on an even integer). -/
theorem round_and_clip_spec (img : Image) :
    (round_and_clip_image img).height = img.height ∧
    (round_and_clip_image img).width = img.width ∧
    (round_and_clip_image img).pixels =
      img.pixels.map (fun v => ((max 0 (min 255 (pyRound v)) : ℤ) : ℚ)) ∧
    (∀ v : ℚ, ∀ k : ℤ, |v - (pyRound v : ℚ)| ≤ |v - (k : ℚ)|) ∧
    (∀ v : ℚ, |v - (pyRound v : ℚ)| = 1 / 2 → 2 ∣ pyRound v) := by
  refine ⟨rfl, rfl, ?_, fun v k => pyRound_nearest v k,
    fun v h => pyRound_tie_even v h⟩
  exact List.map_congr_left (fun a _ => roundClip_eq a)

/-- Witness for C3: the tie `7/2` rounds to the even integer `4`, via
`round_and_clip_spec`. -/
theorem round_and_clip_spec_witness : 2 ∣ pyRound ((7 : ℚ) / 2) :=
  (round_and_clip_spec ⟨1, 1, []⟩).2.2.2.2 ((7 : ℚ) / 2)
    (by with_unfolding_all decide)

/-- Claim C10 — on a well-formed image with positive dimensions, `get_pixel`
is safe for every integer coordinate pair: the clamped row and column are in
bounds, the row-major index is in bounds, and the value read is an element of
the pixel list. -/
theorem get_pixel_safe (img : Image) (h1 : 1 ≤ img.height) (h2 : 1 ≤ img.width)
    (hp : img.pixels.length = img.height * img.width) (x y : ℤ) :
    0 ≤ in_bound img.height x ∧ in_bound img.height x < img.height ∧
    0 ≤ in_bound img.width y ∧ in_bound img.width y < img.width ∧
    0 ≤ in_bound img.height x * img.width + in_bound img.width y ∧
    in_bound img.height x * img.width + in_bound img.width y <
      (img.pixels.length : ℤ) ∧
    get_pixel img x y ∈ img.pixels := by
  have hh : (1 : ℤ) ≤ img.height := by exact_mod_cast h1
  have hw : (1 : ℤ) ≤ img.width := by exact_mod_cast h2
  have hr : 0 ≤ in_bound img.height x ∧ in_bound img.height x < img.height := by
    unfold in_bound; split_ifs <;> omega
  have hc : 0 ≤ in_bound img.width y ∧ in_bound img.width y < img.width := by
    unfold in_bound; split_ifs <;> omega
  set r := in_bound (img.height : ℤ) x with hrdef
  set c := in_bound (img.width : ℤ) y with hcdef
  have hlen : (img.pixels.length : ℤ) = (img.height : ℤ) * img.width := by
    exact_mod_cast hp
  have hidx0 : 0 ≤ r * img.width + c :=
    add_nonneg (mul_nonneg hr.1 (by omega)) hc.1
  have hidx1 : r * img.width + c < (img.pixels.length : ℤ) := by
    have step1 : r * img.width + c < (r + 1) * (img.width : ℤ) := by
      have := hc.2; nlinarith
    have step2 : (r + 1) * (img.width : ℤ) ≤ (img.height : ℤ) * img.width := by
      have : r + 1 ≤ (img.height : ℤ) := by omega
      nlinarith
    omega
  refine ⟨hr.1, hr.2, hc.1, hc.2, hidx0, hidx1, ?_⟩
  unfold get_pixel pyGet
  rw [← hrdef, ← hcdef, if_pos ⟨hidx0, hidx1⟩]
  have htn : (r * img.width + c).toNat < img.pixels.length := by omega
  rw [List.getD_eq_getElem _ _ htn]
  exact List.getElem_mem htn

/-- Witness for C10: `get_pixel` on a concrete 2×3 image at wildly
out-of-range coordinates, via `get_pixel_safe`. -/
theorem get_pixel_safe_witness :
    get_pixel ⟨2, 3, [1, 2, 3, 4, 5, 6]⟩ (-50) 100 ∈
      ([1, 2, 3, 4, 5, 6] : List ℚ) :=
  (get_pixel_safe ⟨2, 3, [1, 2, 3, 4, 5, 6]⟩ (by decide) (by decide) (by decide)
    (-50) 100).2.2.2.2.2.2

theorem intCast_isByte (k : ℤ) (h0 : 0 ≤ k) (h255 : k ≤ 255) : isByte (k : ℚ) :=
  ⟨Rat.den_intCast k, by exact_mod_cast h0, by exact_mod_cast h255⟩

theorem roundClip_isByte (q : ℚ) : isByte (roundClip q) := by
  unfold roundClip
  split_ifs with h1 h2
  · simpa using intCast_isByte 0 le_rfl (by norm_num)
  · simpa using intCast_isByte 255 (by norm_num) le_rfl
  · exact intCast_isByte (pyRound q) (by omega) (by omega)

theorem roundClipRQ_isByte (r : ℝ) : isByte (roundClipRQ r) := by
  unfold roundClipRQ
  split_ifs with h1 h2
  · simpa using intCast_isByte 0 le_rfl (by norm_num)
  · simpa using intCast_isByte 255 (by norm_num) le_rfl
  · exact intCast_isByte (pyRoundR r) (by omega) (by omega)

theorem isByte_of_mem_map_roundClip {v : ℚ} {l : List ℚ}
    (h : v ∈ l.map roundClip) : isByte v := by
  obtain ⟨w, _, rfl⟩ := List.mem_map.mp h
  exact roundClip_isByte w

theorem isByte_of_mem_map_roundClipRQ {v : ℚ} {l : List ℝ}
    (h : v ∈ l.map roundClipRQ) : isByte v := by
  obtain ⟨w, _, rfl⟩ := List.mem_map.mp h
  exact roundClipRQ_isByte w

theorem get_pixel_mem_or_zero (img : Image) (x y : ℤ) :
    get_pixel img x y ∈ img.pixels ∨ get_pixel img x y = 0 := by
  unfold get_pixel pyGet
  split_ifs with h1 h2
  · left
    have hlt : (in_bound img.height x * img.width + in_bound img.width y).toNat
        < img.pixels.length := by omega
    rw [List.getD_eq_getElem _ _ hlt]
    exact List.getElem_mem hlt
  · rcases Nat.lt_or_ge
      (img.pixels.length -
        (-(in_bound img.height x * img.width + in_bound img.width y)).toNat)
      img.pixels.length with hlt | hge
    · left
      rw [List.getD_eq_getElem _ _ hlt]
      exact List.getElem_mem hlt
    · right
      exact List.getD_eq_default _ _ hge
  · right; rfl

theorem isByte_inverted_pixel {v : ℚ} (h : isByte v) : isByte (255 - v) := by
  obtain ⟨hden, h0, h255⟩ := h
  have hv : ((v.num : ℤ) : ℚ) = v := (Rat.den_eq_one_iff v).mp hden
  have hn0 : (0 : ℤ) ≤ v.num := by
    have : ((0 : ℤ) : ℚ) ≤ ((v.num : ℤ) : ℚ) := by rw [hv]; exact_mod_cast h0
    exact_mod_cast this
  have hn255 : v.num ≤ 255 := by
    have : ((v.num : ℤ) : ℚ) ≤ ((255 : ℤ) : ℚ) := by rw [hv]; exact_mod_cast h255
    exact_mod_cast this
  have heq : (255 : ℚ) - v = ((255 - v.num : ℤ) : ℚ) := by
    push_cast
    rw [hv]
  rw [heq]
  exact intCast_isByte _ (by omega) (by omega)

/-- Claim C7 — every image returned by the public filter API (`inverted`,
`blurred`, `sharpened`, `edges`), on an input image whose pixels are
integers in `[0, 255]`, again has all pixel values integers in `[0, 255]`. -/
theorem filters_output_bytes (img : Image) (n : Nat) (_hn : 0 < n)
    (hb : ∀ v ∈ img.pixels, isByte v) :
    (∀ v ∈ (inverted img).pixels, isByte v) ∧
    (∀ v ∈ (blurred img n true).pixels, isByte v) ∧
    (∀ v ∈ (sharpened img n).pixels, isByte v) ∧
    (∀ v ∈ (edges img).pixels, isByte v) := by
  refine ⟨?_, ?_, ?_, ?_⟩
  · intro v hv
    unfold inverted apply_per_pixel pixList at hv
    simp only [List.mem_flatMap, List.mem_map, List.mem_range] at hv
    obtain ⟨x, _, y, _, rfl⟩ := hv
    rcases get_pixel_mem_or_zero img x y with hm | hz
    · exact isByte_inverted_pixel (hb _ hm)
    · rw [hz]
      simpa using intCast_isByte 255 (by norm_num) le_rfl
  · intro v hv
    exact isByte_of_mem_map_roundClip hv
  · intro v hv
    exact isByte_of_mem_map_roundClip hv
  · intro v hv
    exact isByte_of_mem_map_roundClipRQ hv

/-- Witness for C7: the filter outputs on a concrete 1×1 image, via
`filters_output_bytes`. -/
theorem filters_output_bytes_witness :
    (248 : ℚ) ∈ (inverted ⟨1, 1, [7]⟩).pixels ∧ isByte 248 :=
  ⟨by with_unfolding_all decide,
   (filters_output_bytes ⟨1, 1, [7]⟩ 3 (by decide)
      (by with_unfolding_all decide)).1 248 (by with_unfolding_all decide)⟩

namespace Heap

/-!
Store-level embedding.  A `Store` is the part of the Python heap that the
filters can mutate: the list objects held under the `'pixels'` key of the
image dictionaries, addressed by index (a reference).  An `ImageD` is an
image dictionary value: the two integer fields plus the reference of its
pixel-list object.  Every function below threads the store exactly along the
allocations (`[]` literals, list displays, comprehensions), in-place writes
(`append`, index assignment) and field rebindings performed by the source;
pixel values are idealised reals. -/

/-- The mutable heap: pixel-list objects addressed by index. -/
abbrev Store : Type := List (List ℝ)

/-- An image dictionary: `height`, `width`, and the reference of the list
object stored under `'pixels'`. -/
structure ImageD where
  height : Nat
  width : Nat
  pixels : Nat
deriving DecidableEq

/-- Contents of the list object at reference `r` (junk `[]` if dangling). -/
def cell (s : Store) (r : Nat) : List ℝ := List.getD s r []

/-- Allocate a fresh list object: the new store and the new reference. -/
def alloc (s : Store) (l : List ℝ) : Store × Nat :=
  (List.append s [l], List.length s)

/-- Overwrite the list object at reference `r` in place. -/
def writeCell (s : Store) (r : Nat) (l : List ℝ) : Store := List.set s r l

/-- Python list subscription on a real-valued buffer (as `pyGet`). -/
def pyGetR (l : List ℝ) (i : ℤ) : ℝ :=
  if 0 ≤ i ∧ i < l.length then l.getD i.toNat 0
  else if -(l.length : ℤ) ≤ i ∧ i < 0 then l.getD (l.length - (-i).toNat) 0
  else 0

/-- `get_pixel` reading through the store. -/
def get_pixelS (s : Store) (image : ImageD) (x y : ℤ) : ℝ :=
  pyGetR (cell s image.pixels)
    (in_bound image.height x * image.width + in_bound image.width y)

/-- Transcription of `set_pixel(image, c)`: `image['pixels'].append(c)`, an
in-place write to the list object the image refers to. -/
def set_pixelS (s : Store) (image : ImageD) (c : ℝ) : Store :=
  writeCell s image.pixels (List.append (cell s image.pixels) [c])

/-- Transcription of `apply_per_pixel`: allocate the result dictionary with
a fresh empty pixel list, then append one value per coordinate in row-major
loop order, reading the input through the current store at each step. -/
def apply_per_pixelS (s : Store) (image : ImageD) (func : ℝ → ℝ) :
    Store × ImageD :=
  let a := alloc s []
  let result : ImageD := ⟨image.height, image.width, a.2⟩
  let s2 := (List.range image.height).foldl (fun acc x =>
    (List.range image.width).foldl (fun acc2 y =>
      set_pixelS acc2 result (func (get_pixelS acc2 image (x : ℤ) (y : ℤ))))
      acc) a.1
  (s2, result)

/-- `inverted` over the store. -/
def invertedS (s : Store) (image : ImageD) : Store × ImageD :=
  apply_per_pixelS s image (fun c => 255 - c)

/-- `correlate` over the store: fresh result list, nested loops appending
the window sums. -/
def correlateS (s : Store) (image : ImageD) (kernel : List ℝ) :
    Store × ImageD :=
  let a := alloc s []
  let result : ImageD := ⟨image.height, image.width, a.2⟩
  let kernel_size := Nat.sqrt kernel.length
  let num_layers := (kernel_size - 1) / 2
  let s2 := (List.range image.height).foldl (fun acc x =>
    (List.range image.width).foldl (fun acc2 y =>
      set_pixelS acc2 result
        (((List.range kernel_size).flatMap (fun h =>
          (List.range kernel_size).map (fun w =>
            kernel.getD (h * kernel_size + w) 0 *
              get_pixelS acc2 image ((x : ℤ) - num_layers + h)
                ((y : ℤ) - num_layers + w)))).sum)) acc) a.1
  (s2, result)

/-- The per-pixel body of `round_and_clip_image` on a real pixel. -/
noncomputable def roundClipR (r : ℝ) : ℝ :=
  if pyRoundR r < 0 then 0
  else if 255 < pyRoundR r then 255
  else (pyRoundR r : ℝ)

/-- Transcription of `round_and_clip_image` over the store: the loop
overwrites every slot of the pixel list of its argument IN PLACE (index
assignment on `image['pixels']`), and the function returns the very same
dictionary. -/
noncomputable def round_and_clip_imageS (s : Store) (image : ImageD) :
    Store × ImageD :=
  (writeCell s image.pixels ((cell s image.pixels).map roundClipR), image)

/-- `get_blur_kernel` with real weights. -/
noncomputable def get_blur_kernelR (n : Nat) : List ℝ :=
  List.replicate (n ^ 2) (1 / (n : ℝ) ^ 2)

/-- `blurred` over the store: correlate into a fresh result, then (when
`correct`) round-and-clip that fresh result in place. -/
noncomputable def blurredS (s : Store) (image : ImageD) (n : Nat)
    (correct : Bool) : Store × ImageD :=
  let kernel := get_blur_kernelR n
  let c := correlateS s image kernel
  if correct then round_and_clip_imageS c.1 c.2 else c

/-- `sharpened` over the store: the result dictionary is created with a
fresh empty list, the unclipped blur is computed, `result['pixels']` is
rebound to a freshly built list (the comprehension), and that fresh list is
round-and-clipped in place. -/
noncomputable def sharpenedS (s : Store) (image : ImageD) (n : Nat) :
    Store × ImageD :=
  let a := alloc s []
  let result : ImageD := ⟨image.height, image.width, a.2⟩
  let b := blurredS a.1 image n false
  let newpix := ((cell b.1 image.pixels).zip (cell b.1 b.2.pixels)).map
    (fun p => 2 * p.1 - p.2)
  let a2 := alloc b.1 newpix
  round_and_clip_imageS a2.1 ⟨result.height, result.width, a2.2⟩

/-- `edges` over the store: `Oxy = i.copy()` shares `i`'s pixel-list
reference, but `Oxy['pixels'] = [...]` rebinds the copy's field to a freshly
allocated list (the comprehension of gradient magnitudes), so the in-place
round-and-clip hits only that fresh list. -/
noncomputable def edgesS (s : Store) (i : ImageD) : Store × ImageD :=
  let Kx : List ℝ := [-1, 0, 1, -2, 0, 2, -1, 0, 1]
  let Ky : List ℝ := [-1, -2, -1, 0, 0, 0, 1, 2, 1]
  let cx := correlateS s i Kx
  let cy := correlateS cx.1 i Ky
  let mags := ((cell cy.1 cx.2.pixels).zip (cell cy.1 cy.2.pixels)).map
    (fun p => Real.sqrt (p.1 ^ 2 + p.2 ^ 2))
  let a2 := alloc cy.1 mags
  round_and_clip_imageS a2.1 ⟨i.height, i.width, a2.2⟩

theorem cell_writeCell_self (s : Store) (r : Nat) (l : List ℝ)
    (h : r < List.length s) : cell (writeCell s r l) r = l := by
  unfold cell writeCell
  rw [List.getD_eq_getElem?_getD, List.getElem?_set_self h]
  rfl

theorem cell_writeCell_ne (s : Store) (r p : Nat) (l : List ℝ) (h : p ≠ r) :
    cell (writeCell s r l) p = cell s p := by
  unfold cell writeCell
  rw [List.getD_eq_getElem?_getD, List.getD_eq_getElem?_getD,
    List.getElem?_set_ne (Ne.symm h)]

theorem length_writeCell (s : Store) (r : Nat) (l : List ℝ) :
    List.length (writeCell s r l) = List.length s := List.length_set s r l

theorem cell_append_ne (s : Store) (l : List ℝ) (p : Nat)
    (h : p ≠ List.length s) : cell (List.append s [l]) p = cell s p := by
  unfold cell
  rw [List.getD_eq_getElem?_getD, List.getD_eq_getElem?_getD]
  rcases Nat.lt_or_ge p (List.length s) with hp | hp
  · rw [show List.append s [l] = s ++ [l] from rfl, List.getElem?_append_left hp]
  · have h2 : List.length (List.append s [l]) ≤ p := by
      rw [show List.append s [l] = s ++ [l] from rfl, List.length_append]
      simp only [List.length_singleton]
      omega
    rw [List.getElem?_eq_none hp, List.getElem?_eq_none h2]

theorem cell_foldl {β : Type} (g : Store → β → Store) (p : Nat)
    (hg : ∀ acc b, cell (g acc b) p = cell acc p) :
    ∀ (l : List β) (s : Store), cell (List.foldl g s l) p = cell s p := by
  intro l
  induction l with
  | nil => intro s; rfl
  | cons a t ih => intro s; rw [List.foldl_cons, ih, hg]

theorem length_foldl {β : Type} (g : Store → β → Store)
    (hg : ∀ acc b, List.length (g acc b) = List.length acc) :
    ∀ (l : List β) (s : Store),
      List.length (List.foldl g s l) = List.length s := by
  intro l
  induction l with
  | nil => intro s; rfl
  | cons a t ih => intro s; rw [List.foldl_cons, ih, hg]

theorem cell_set_pixelS_ne (s : Store) (image : ImageD) (c : ℝ) (p : Nat)
    (h : p ≠ image.pixels) : cell (set_pixelS s image c) p = cell s p :=
  cell_writeCell_ne s image.pixels p _ h

theorem length_set_pixelS (s : Store) (image : ImageD) (c : ℝ) :
    List.length (set_pixelS s image c) = List.length s :=
  length_writeCell s image.pixels _

theorem length_append_singleton (s : Store) (l : List ℝ) :
    List.length (List.append s [l]) = List.length s + 1 := by
  rw [show List.append s [l] = s ++ [l] from rfl, List.length_append]
  rfl

theorem apply_per_pixelS_fst_cell (s : Store) (image : ImageD) (func : ℝ → ℝ)
    (p : Nat) (hp : p ≠ List.length s) :
    cell (apply_per_pixelS s image func).1 p = cell s p := by
  unfold apply_per_pixelS alloc
  simp only
  refine (cell_foldl _ p ?_ _ _).trans (cell_append_ne s [] p hp)
  intro acc x
  refine cell_foldl _ p ?_ _ _
  intro acc2 y
  exact cell_set_pixelS_ne acc2 _ _ p hp

theorem apply_per_pixelS_fst_length (s : Store) (image : ImageD)
    (func : ℝ → ℝ) :
    List.length (apply_per_pixelS s image func).1 = List.length s + 1 := by
  unfold apply_per_pixelS alloc
  simp only
  refine (length_foldl _ ?_ _ _).trans (length_append_singleton s [])
  intro acc x
  refine length_foldl _ ?_ _ _
  intro acc2 y
  exact length_set_pixelS acc2 _ _

theorem correlateS_fst_cell (s : Store) (image : ImageD) (kernel : List ℝ)
    (p : Nat) (hp : p ≠ List.length s) :
    cell (correlateS s image kernel).1 p = cell s p := by
  unfold correlateS alloc
  simp only
  refine (cell_foldl _ p ?_ _ _).trans (cell_append_ne s [] p hp)
  intro acc x
  refine cell_foldl _ p ?_ _ _
  intro acc2 y
  exact cell_set_pixelS_ne acc2 _ _ p hp

theorem correlateS_fst_length (s : Store) (image : ImageD) (kernel : List ℝ) :
    List.length (correlateS s image kernel).1 = List.length s + 1 := by
  unfold correlateS alloc
  simp only
  refine (length_foldl _ ?_ _ _).trans (length_append_singleton s [])
  intro acc x
  refine length_foldl _ ?_ _ _
  intro acc2 y
  exact length_set_pixelS acc2 _ _

theorem correlateS_snd (s : Store) (image : ImageD) (kernel : List ℝ) :
    (correlateS s image kernel).2 =
      ⟨image.height, image.width, List.length s⟩ := rfl

theorem round_and_clip_imageS_fst_cell_ne (s : Store) (image : ImageD)
    (p : Nat) (hp : p ≠ image.pixels) :
    cell (round_and_clip_imageS s image).1 p = cell s p :=
  cell_writeCell_ne s image.pixels p _ hp

theorem round_and_clip_imageS_fst_length (s : Store) (image : ImageD) :
    List.length (round_and_clip_imageS s image).1 = List.length s :=
  length_writeCell s image.pixels _

theorem blurredS_fst_cell (s : Store) (image : ImageD) (n : Nat) (c : Bool)
    (p : Nat) (hp : p ≠ List.length s) :
    cell (blurredS s image n c).1 p = cell s p := by
  cases c with
  | false =>
    show cell (correlateS s image (get_blur_kernelR n)).1 p = cell s p
    exact correlateS_fst_cell s image _ p hp
  | true =>
    show cell (round_and_clip_imageS
        (correlateS s image (get_blur_kernelR n)).1
        (correlateS s image (get_blur_kernelR n)).2).1 p = cell s p
    refine (round_and_clip_imageS_fst_cell_ne _ _ p ?_).trans
      (correlateS_fst_cell s image _ p hp)
    rw [correlateS_snd]
    exact hp

theorem blurredS_fst_length (s : Store) (image : ImageD) (n : Nat)
    (c : Bool) :
    List.length (blurredS s image n c).1 = List.length s + 1 := by
  cases c with
  | false =>
    show List.length (correlateS s image (get_blur_kernelR n)).1 = _
    exact correlateS_fst_length s image _
  | true =>
    show List.length (round_and_clip_imageS
        (correlateS s image (get_blur_kernelR n)).1
        (correlateS s image (get_blur_kernelR n)).2).1 = _
    rw [round_and_clip_imageS_fst_length, correlateS_fst_length]

theorem sharpenedS_fst_cell (s : Store) (image : ImageD) (n : Nat) (p : Nat)
    (hp : p < List.length s) :
    cell (sharpenedS s image n).1 p = cell s p := by
  unfold sharpenedS alloc
  simp only
  have h1 : List.length (List.append s [([] : List ℝ)]) = List.length s + 1 :=
    length_append_singleton s []
  have h2 : List.length
      (blurredS (List.append s [([] : List ℝ)]) image n false).1
      = List.length s + 2 := by
    rw [blurredS_fst_length, h1]
  refine (round_and_clip_imageS_fst_cell_ne _ _ p ?_).trans
    ((cell_append_ne _ _ p ?_).trans
      ((blurredS_fst_cell _ image n false p ?_).trans
        (cell_append_ne s [] p ?_)))
  · show p ≠ List.length (blurredS (List.append s [([] : List ℝ)]) image n false).1
    omega
  · omega
  · omega
  · omega

theorem edgesS_fst_cell (s : Store) (i : ImageD) (p : Nat)
    (hp : p < List.length s) :
    cell (edgesS s i).1 p = cell s p := by
  unfold edgesS
  simp only
  have h1 : List.length
      (correlateS s i [-1, 0, 1, -2, 0, 2, -1, 0, 1]).1
      = List.length s + 1 := correlateS_fst_length s i _
  have h2 : List.length
      (correlateS (correlateS s i [-1, 0, 1, -2, 0, 2, -1, 0, 1]).1 i
        [-1, -2, -1, 0, 0, 0, 1, 2, 1]).1
      = List.length s + 2 := by
    rw [correlateS_fst_length, h1]
  refine (round_and_clip_imageS_fst_cell_ne _ _ p ?_).trans
    ((cell_append_ne _ _ p ?_).trans
      ((correlateS_fst_cell _ i _ p ?_).trans
        (correlateS_fst_cell s i _ p ?_)))
  · show p ≠ List.length
      (correlateS (correlateS s i [-1, 0, 1, -2, 0, 2, -1, 0, 1]).1 i
        [-1, -2, -1, 0, 0, 0, 1, 2, 1]).1
    omega
  · omega
  · omega
  · omega

/-- Claim C4 (counterexample) — `round_and_clip_image` does mutate its
input: on the store holding the single pixel list `[300]` and the image
dictionary referring to it, the pixel list referred to by the input is
`[255]` after the call, not the original `[300]`. -/
theorem round_and_clip_mutates_counterexample :
    cell (round_and_clip_imageS [[(300 : ℝ)]] ⟨1, 1, 0⟩).1 0 ≠
      cell [[(300 : ℝ)]] 0 := by
  have h1 : pyRoundR (300 : ℝ) = 300 := by
    unfold pyRoundR
    rw [show ⌊(300 : ℝ)⌋ = 300 by norm_num]
    norm_num
  have h2 : roundClipR (300 : ℝ) = 255 := by
    unfold roundClipR
    rw [h1]
    norm_num
  have hred : cell (round_and_clip_imageS [[(300 : ℝ)]] ⟨1, 1, 0⟩).1 0 =
      [roundClipR (300 : ℝ)] := rfl
  rw [hred, h2, show cell [[(300 : ℝ)]] 0 = [(300 : ℝ)] from rfl]
  simp only [ne_eq, List.cons.injEq, and_true]
  norm_num

/-- Claim C4 (amended) — `round_and_clip_image` quantizes IN PLACE: it
returns the very same image dictionary it was given, and after the call the
pixel list referred to by the input holds the rounded-and-clamped values (so
the input is preserved only when every pixel is already fixed by
round-and-clamp; it does not construct a new image). -/
theorem round_and_clip_in_place (s : Store) (img : ImageD)
    (hp : img.pixels < List.length s) :
    (round_and_clip_imageS s img).2 = img ∧
    cell (round_and_clip_imageS s img).1 img.pixels =
      (cell s img.pixels).map roundClipR :=
  ⟨rfl, cell_writeCell_self s img.pixels _ hp⟩

/-- Witness for the amended C4: the in-place update on the concrete store
`[[300]]`, via `round_and_clip_in_place`. -/
theorem round_and_clip_in_place_witness :
    (round_and_clip_imageS [[(300 : ℝ)]] ⟨1, 1, 0⟩).2 = ⟨1, 1, 0⟩ ∧
    cell (round_and_clip_imageS [[(300 : ℝ)]] ⟨1, 1, 0⟩).1 0 =
      (cell [[(300 : ℝ)]] 0).map roundClipR :=
  round_and_clip_in_place [[(300 : ℝ)]] ⟨1, 1, 0⟩ (by decide)

/-- Claim C6 — none of the public filters mutates its input image: for any
store and any valid input reference, the pixel list the input image refers
to is unchanged after `inverted`, `blurred` (with clipping, any kernel
size), `sharpened` (any kernel size) and `edges`. -/
theorem filters_preserve_input (s : Store) (img : ImageD) (n : Nat)
    (hp : img.pixels < List.length s) :
    cell (invertedS s img).1 img.pixels = cell s img.pixels ∧
    cell (blurredS s img n true).1 img.pixels = cell s img.pixels ∧
    cell (sharpenedS s img n).1 img.pixels = cell s img.pixels ∧
    cell (edgesS s img).1 img.pixels = cell s img.pixels :=
  ⟨apply_per_pixelS_fst_cell s img _ img.pixels (by omega),
   blurredS_fst_cell s img n true img.pixels (by omega),
   sharpenedS_fst_cell s img n img.pixels hp,
   edgesS_fst_cell s img img.pixels hp⟩

/-- Witness for C6: input preservation on a concrete one-cell store, via
`filters_preserve_input`. -/
theorem filters_preserve_input_witness :
    cell (invertedS [[(0 : ℝ)]] ⟨1, 1, 0⟩).1 0 = cell [[(0 : ℝ)]] 0 ∧
    cell (blurredS [[(0 : ℝ)]] ⟨1, 1, 0⟩ 3 true).1 0 = cell [[(0 : ℝ)]] 0 ∧
    cell (sharpenedS [[(0 : ℝ)]] ⟨1, 1, 0⟩ 3).1 0 = cell [[(0 : ℝ)]] 0 ∧
    cell (edgesS [[(0 : ℝ)]] ⟨1, 1, 0⟩).1 0 = cell [[(0 : ℝ)]] 0 :=
  filters_preserve_input [[(0 : ℝ)]] ⟨1, 1, 0⟩ 3 (by decide)

end Heap

end Lab0
